import Mathlib

/-!
A pub/sub heartbeat node (`main.go`).

Shallow embedding of `main.go`: the `Publish` helper, the flag validation and
start-up sequence of `main`, the subscriber and publisher loops, and the mDNS
notifee `HandlePeerFound`.

Calls into the networking libraries (host construction, the gossip router, the
topic and subscription handles, mDNS) are not part of the program text.  Their
results are inputs of the model, and every call the program makes is recorded,
in program order, in a trace of `Event`s together with the log records the
program writes.
-/

namespace P2P

/-! ## Data model -/

/-- A Go `string`: an immutable sequence of bytes. -/
structure GoString where
  bytes : List UInt8
deriving DecidableEq, Repr

/-- The conversion `[]byte(s)`: a byte slice holding the bytes of `s`. -/
def GoString.toBytes (s : GoString) : List UInt8 := s.bytes

/-- The conversion `string(b)`: a string holding the bytes of `b`. -/
def GoString.ofBytes (b : List UInt8) : GoString := ⟨b⟩

/-- A string literal of the program text; Go source is UTF-8 encoded. -/
def GoString.lit (s : String) : GoString := ⟨s.toList.flatMap String.utf8EncodeChar⟩

/-- A `peer.ID` (`type ID string`), compared with `==`. -/
structure PeerID where
  raw : GoString
deriving DecidableEq, Repr

/-- A non-nil Go `error`. -/
structure Error where
  text : String
deriving DecidableEq, Repr

/-- A `peer.AddrInfo`: a peer identity with its multiaddresses. -/
structure AddrInfo where
  ID : PeerID
  Addrs : List GoString
deriving DecidableEq, Repr

/-- A `host.Host` as far as the program looks at it: `h.ID()` and the rendered
`h.Addrs()`. -/
structure Host where
  ID : PeerID
  Addrs : List GoString
deriving DecidableEq, Repr

/-- A non-nil `*pubsub.Topic`. -/
structure Topic where
  name : String
deriving DecidableEq, Repr

/-- A `*pubsub.Message`: the wire message (`From` is the peer that first
published it, `Seqno` its sequence number, `Data` the payload) and
`ReceivedFrom`, the peer that handed the message to this node. -/
structure Message where
  From : PeerID
  Data : List UInt8
  Seqno : List UInt8
  ReceivedFrom : PeerID
deriving DecidableEq, Repr

/-- The getter `msg.GetData()`. -/
def Message.GetData (m : Message) : List UInt8 := m.Data

/-- Levels of the zerolog records the program writes. -/
inductive Level where
  | debug
  | info
  | error
  | fatal
deriving DecidableEq, Repr

/-- Values of record fields: a string, `id.Pretty()` of a peer identity, or an
error. -/
inductive FieldVal where
  | str (s : GoString)
  | pretty (id : PeerID)
  | err (e : Error)
deriving DecidableEq, Repr

/-- One log record: the level, the fields in the order they are added, and the
text given to `Msg`. -/
structure Record where
  level : Level
  fields : List (String × FieldVal)
  msg : String
deriving DecidableEq, Repr

/-- What the program does to the world, in program order. -/
inductive Event where
  | log (r : Record)
  | libp2pNew
  | newGossipSub
  | mdnsStart (tag : String)
  | join (name : String)
  | subscribe (topic : Topic)
  | topicPublish (topic : Topic) (data : List UInt8)
  | connect (pi : AddrInfo)
deriving DecidableEq, Repr

/-- How a run ends: `os.Exit` with a code, a run-time failure (nil dereference or
index out of range), or waiting forever for the next message or tick once the
inputs of the run are used up. -/
inductive Outcome where
  | exit (code : Nat)
  | failed
  | waiting
deriving DecidableEq, Repr

/-- A call that returns: what it did and what it returned. -/
structure Run (α : Type) where
  trace : List Event
  result : α

/-- A run of a non-returning piece of program: what it did and how it ended. -/
structure Exec where
  trace : List Event
  outcome : Outcome
deriving DecidableEq, Repr

/-- Run `e` after the events `evs`. -/
def Exec.after (evs : List Event) (e : Exec) : Exec := ⟨evs ++ e.trace, e.outcome⟩

/-! ## `Publish` -/

def DiscoveryServiceTag : String := "rymnc-pubsub"

/-- `Publish(ctx, topic, msg)`: `return topic.Publish(ctx, []byte(msg))`.
`topicPublish` is the library method `(*pubsub.Topic).Publish` at the time of the
call. -/
def Publish (topicPublish : Topic → List UInt8 → Option Error) (topic : Topic)
    (msg : GoString) : Run (Option Error) :=
  { trace := [Event.topicPublish topic msg.toBytes]
    result := topicPublish topic msg.toBytes }

/-! ## The loops of `main` -/

/-- The record written at `main.go:97-100`. -/
def receivedRecord (msg : Message) : Record :=
  { level := Level.info
    fields := [("from", FieldVal.pretty msg.ReceivedFrom),
               ("msg", FieldVal.str (GoString.ofBytes msg.GetData))]
    msg := "received message" }

/-- The subscriber loop, `main.go:89-101`, over the successive results of
`sub.Next(ctx)`.

An error result reaches `log.Fatal().AnErr(...)`, an event that is never sent (no
`Msg`), so nothing is written and the process does not exit; `msg` is nil and
`msg.ReceivedFrom` fails. -/
def subscriberLoop (h : Host) : List (Except Error Message) → Exec
  | [] => ⟨[], Outcome.waiting⟩
  | Except.error _ :: _ => ⟨[], Outcome.failed⟩
  | Except.ok msg :: rest =>
    if msg.ReceivedFrom = h.ID then subscriberLoop h rest
    else Exec.after [Event.log (receivedRecord msg)] (subscriberLoop h rest)

/-- The payload of the publisher loop. -/
def heartbeat : GoString := GoString.lit "heartbeat"

/-- The publisher loop, `main.go:106-108`, from tick number `k` on, for `n` more
ticks: one `Publish` per tick, its result discarded.  `topicPublish k` is the
library method at tick `k`. -/
def publisherLoop (topicPublish : Nat → Topic → List UInt8 → Option Error) (topic : Topic) :
    Nat → Nat → Exec
  | _, 0 => ⟨[], Outcome.waiting⟩
  | k, n + 1 =>
    Exec.after (Publish (topicPublish k) topic heartbeat).trace
      (publisherLoop topicPublish topic (k + 1) n)

/-! ## Discovery -/

/-- The notifee handed to the mDNS service. -/
structure discoveryNotifee where
  h : Host
deriving DecidableEq, Repr

/-- `setupDiscovery(h)`: create the mDNS service with the notifee and return the
result of `s.Start()`, given as `start`. -/
def setupDiscovery (start : Option Error) (_h : Host) : Run (Option Error) :=
  { trace := [Event.mdnsStart DiscoveryServiceTag], result := start }

/-- `(n *discoveryNotifee).HandlePeerFound(pi)`; `connect` is `n.h.Connect` at the
time of the call. -/
def discoveryNotifee.HandlePeerFound (_n : discoveryNotifee)
    (connect : AddrInfo → Option Error) (pi : AddrInfo) : Run Unit :=
  { trace :=
      [Event.log ⟨Level.debug, [("id", FieldVal.pretty pi.ID)], "discovered new peer"⟩,
       Event.connect pi] ++
      (match connect pi with
       | none => []
       | some err =>
         [Event.log ⟨Level.error, [("id", FieldVal.pretty pi.ID), ("err", FieldVal.err err)],
            "error connecting to peer"⟩])
    result := () }

/-- The mDNS service calling the notifee once per peer-found event; `connect k` is
`n.h.Connect` at event number `k`. -/
def peerFoundEvents (n : discoveryNotifee) (connect : Nat → AddrInfo → Option Error) :
    Nat → List AddrInfo → List Event
  | _, [] => []
  | k, pi :: rest =>
    (n.HandlePeerFound (connect k) pi).trace ++ peerFoundEvents n connect (k + 1) rest

/-! ## `main` -/

/-- The inputs of a run of `main`: the results of the library calls it makes. -/
structure Env where
  libp2pNew : Except Error Host
  newGossipSub : Option Error
  mdnsStart : Option Error
  join : Option Error
  subscribe : Option Error
  next : List (Except Error Message)
  ticks : Nat
  topicPublish : Nat → Topic → List UInt8 → Option Error

/-- The subscriber branch, `main.go:84-102`.  `topic` is nil when `ps.Join`
returned an error, `sub` is nil when `topic.Subscribe` did; a call on a nil handle
fails. -/
def subscriberBranch (env : Env) (h : Host) : Option Topic → Exec
  | none => ⟨[], Outcome.failed⟩
  | some topic =>
    Exec.after [Event.subscribe topic]
      (match env.subscribe with
       | some _ => ⟨[], Outcome.failed⟩
       | none => subscriberLoop h env.next)

/-- The publisher branch, `main.go:104-109`.  With a nil `topic` the first tick
fails inside `topic.Publish`. -/
def publisherBranch (env : Env) : Option Topic → Exec
  | none =>
    ⟨[Event.log ⟨Level.info, [], "publishing..."⟩],
      if env.ticks = 0 then Outcome.waiting else Outcome.failed⟩
  | some topic =>
    Exec.after [Event.log ⟨Level.info, [], "publishing..."⟩]
      (publisherLoop env.topicPublish topic 0 env.ticks)

/-- `main.go:48-110`, what follows the flag validation. -/
def startup (env : Env) (publisher subscriber : Bool) : Exec :=
  match env.libp2pNew with
  | Except.error e =>
    ⟨[Event.libp2pNew,
      Event.log ⟨Level.fatal, [("error", FieldVal.err e)], "error creating libp2p host"⟩],
     Outcome.exit 1⟩
  | Except.ok h =>
    match h.Addrs with
    | [] => ⟨[Event.libp2pNew], Outcome.failed⟩
    | addr :: _ =>
      Exec.after
        ([Event.libp2pNew,
          Event.log ⟨Level.debug,
            [("id", FieldVal.pretty h.ID), ("address", FieldVal.str addr)],
            "libp2p node created with config"⟩,
          Event.newGossipSub] ++ (setupDiscovery env.mdnsStart h).trace)
        (match env.newGossipSub with
         | some _ => ⟨[], Outcome.failed⟩
         | none =>
           Exec.after [Event.join "test"]
             (let topic : Option Topic :=
                match env.join with
                | some _ => none
                | none => some ⟨"test"⟩
              if subscriber = true then subscriberBranch env h topic
              else if publisher = true then publisherBranch env topic
              else ⟨[], Outcome.exit 0⟩))

/-- `main`, with the values of the `-publisher` and `-subscriber` flags.
`log.Fatal().Msg(...)` writes the record and exits with status 1. -/
def main (env : Env) (publisher subscriber : Bool) : Exec :=
  if publisher && subscriber then
    ⟨[Event.log ⟨Level.fatal, [], "cannot be both publisher and subscriber"⟩], Outcome.exit 1⟩
  else if !publisher && !subscriber then
    ⟨[Event.log ⟨Level.fatal, [], "must be either publisher or subscriber"⟩], Outcome.exit 1⟩
  else startup env publisher subscriber

/-! ## Concrete nodes and messages used in the examples -/

def peerA : PeerID := ⟨GoString.lit "A"⟩

def peerB : PeerID := ⟨GoString.lit "B"⟩

def peerC : PeerID := ⟨GoString.lit "C"⟩

def hostA : Host := ⟨peerA, [GoString.lit "/ip6/::1/udp/4001/quic"]⟩

def hostC : Host := ⟨peerC, [GoString.lit "/ip6/::1/udp/4003/quic"]⟩

/-- A heartbeat first published by `A` that `B` hands to its receiver. -/
def heartbeatOfAViaB : Message :=
  { From := peerA, Data := heartbeat.toBytes, Seqno := [1], ReceivedFrom := peerB }

/-- A heartbeat that `A` published itself, as its own subscription hands it over. -/
def ownHeartbeatOfA : Message :=
  { From := peerA, Data := heartbeat.toBytes, Seqno := [1], ReceivedFrom := peerA }

/-- A heartbeat of `B`, handed over by `B` itself. -/
def heartbeatOfB : Message :=
  { From := peerB, Data := heartbeat.toBytes, Seqno := [1], ReceivedFrom := peerB }

/-- A run in which every library call succeeds, the host is `h`, the subscription
hands over `next`, and `ticks` timer ticks arrive. -/
def quietEnv (h : Host) (next : List (Except Error Message)) (ticks : Nat) : Env :=
  { libp2pNew := Except.ok h, newGossipSub := none, mdnsStart := none, join := none,
    subscribe := none, next := next, ticks := ticks, topicPublish := fun _ _ _ => none }

/-- The address info of `B` as mDNS announces it. -/
def addrInfoB : AddrInfo := ⟨peerB, [GoString.lit "/ip6/::1/udp/4002/quic"]⟩

/-! ## Helpers for reading traces -/

/-- The value of the field `key` of a record. -/
def Record.field (r : Record) (key : String) : Option FieldVal := r.fields.lookup key

/-- The calls of `Connect` in a trace, in order. -/
def connectCalls : List Event → List AddrInfo
  | [] => []
  | Event.connect pi :: rest => pi :: connectCalls rest
  | _ :: rest => connectCalls rest

/-- The calls of `topic.Publish` in a trace. -/
def publishCalls : List Event → List (Topic × List UInt8)
  | [] => []
  | Event.topicPublish t d :: rest => (t, d) :: publishCalls rest
  | _ :: rest => publishCalls rest

/-! ## The message cache of the gossip router

`main.go:69` builds the router with `pubsub.NewGossipSub(ctx, h)`; the cache of
message fingerprints it keeps and its receive path are not in the program text.
-/

/-- Modelled from the spec: the SeenSet of a topic (sections 3 and 4.1), which
lives inside the gossip router and is missing from the program text.  It is a
store of fingerprints bounded by a fixed maximum entry count; `entries` holds them
in insertion order, oldest first.  The retention window of section 3 is a matter
of wall-clock time and is left out. -/
structure SeenSet (F : Type) where
  capacity : Nat
  entries : List F

/-- Modelled from the spec: the SeenSet of a topic that was just joined, with the
configured capacity (the router constructor is missing from the program text). -/
def SeenSet.empty {F : Type} (capacity : Nat) : SeenSet F := ⟨capacity, []⟩

/-- Modelled from the spec: `hasSeen(topic, fingerprint)` of section 4.1, missing
from the program text. -/
def SeenSet.hasSeen {F : Type} [DecidableEq F] (s : SeenSet F) (fp : F) : Bool :=
  decide (fp ∈ s.entries)

/-- Modelled from the spec: `markSeen(topic, fingerprint)` of section 4.1, missing
from the program text.  It is idempotent, and an insertion beyond the capacity
evicts the oldest entries first (by insertion time, not by last access). -/
def SeenSet.markSeen {F : Type} [DecidableEq F] (s : SeenSet F) (fp : F) : SeenSet F :=
  if fp ∈ s.entries then s
  else
    { capacity := s.capacity
      entries := (s.entries ++ [fp]).drop ((s.entries ++ [fp]).length - s.capacity) }

/-- Modelled from the spec: `markSeen` for a sequence of fingerprints, in order
(the caller of the missing `markSeen`). -/
def SeenSet.markAll {F : Type} [DecidableEq F] : SeenSet F → List F → SeenSet F
  | s, [] => s
  | s, fp :: rest => SeenSet.markAll (s.markSeen fp) rest

/-- Modelled from the spec: the receive path of section 4.4 step 2, missing from
the program text, for one incoming message: a fingerprint already seen is dropped
silently, a new one is marked seen and the message is delivered to the local
subscriber.  The result is the SeenSet afterwards and the messages delivered.
`fingerprint` is the fingerprint scheme, which the spec leaves free. -/
def receive {F : Type} [DecidableEq F] (fingerprint : Message → F) (s : SeenSet F)
    (m : Message) : SeenSet F × List Message :=
  if s.hasSeen (fingerprint m) then (s, [])
  else (s.markSeen (fingerprint m), [m])

/-- Modelled from the spec: the receive path of section 4.4 step 2 over a sequence
of incoming messages; the result is the messages handed to the subscription, in
order. -/
def receiveAll {F : Type} [DecidableEq F] (fingerprint : Message → F) :
    SeenSet F → List Message → List Message
  | _, [] => []
  | s, m :: rest =>
    (receive fingerprint s m).2 ++ receiveAll fingerprint (receive fingerprint s m).1 rest

/-- Modelled from the spec: the SeenSet after the receive path of section 4.4
step 2, missing from the program text, has handled a sequence of incoming
messages. -/
def seenAfter {F : Type} [DecidableEq F] (fingerprint : Message → F) :
    SeenSet F → List Message → SeenSet F
  | s, [] => s
  | s, m :: rest => seenAfter fingerprint (receive fingerprint s m).1 rest

/-- Modelled from the spec: a joined or not joined topic as the disseminator sees
it (sections 3, 4.2 and 4.4), missing from the program text: whether the topic is
joined, the member peers, each with the result the next write on its stream
gives, and the SeenSet. -/
structure TopicState (F : Type) where
  joined : Bool
  members : List (PeerID × Option Error)
  seen : SeenSet F

/-- Modelled from the spec: what one call of the library method `topic.Publish`
does (missing from the program text): the topic afterwards, the peers a write was
attempted to, and the error result handed to the caller. -/
structure Dissemination (F : Type) where
  state : TopicState F
  writes : List PeerID
  result : Option Error

/-- Modelled from the spec: the library method `topic.Publish`, missing from the
program text (sections 4.4 steps 1 and 3, 4.5, 6 and 7).  Publishing on a topic
that was never joined is a precondition error and is handed to the caller.
Otherwise a message with this node as origin is constructed, marked seen, and
written once to the stream of every member peer; a failed write removes that peer,
is not retried, and is not reported to the caller. -/
def TopicState.publish {F : Type} [DecidableEq F] (st : TopicState F) (self : PeerID)
    (seqno : List UInt8) (fingerprint : Message → F) (data : List UInt8) : Dissemination F :=
  if st.joined then
    { state :=
        { joined := true
          members := st.members.filter (fun p => p.2.isNone)
          seen := st.seen.markSeen (fingerprint ⟨self, data, seqno, self⟩) }
      writes := st.members.map Prod.fst
      result := none }
  else
    { state := st, writes := [], result := some ⟨"topic not joined"⟩ }

/-- The last `c` elements of a list. -/
def lastN {α : Type} (c : Nat) (l : List α) : List α := l.drop (l.length - c)

/-- A fingerprint scheme for the examples: the origin and the sequence number. -/
def originSeqno (m : Message) : PeerID × List UInt8 := (m.From, m.Seqno)

/-- A second message of `A`, handed over by `B`. -/
def secondOfAViaB : Message :=
  { From := peerA, Data := (GoString.lit "second").toBytes, Seqno := [2], ReceivedFrom := peerB }

/-! ## The message cache -/

theorem SeenSet.markSeen_capacity {F : Type} [DecidableEq F] (s : SeenSet F) (fp : F) :
    (s.markSeen fp).capacity = s.capacity := by
  unfold SeenSet.markSeen
  split <;> rfl

theorem SeenSet.markSeen_of_mem {F : Type} [DecidableEq F] (s : SeenSet F) (fp : F)
    (hmem : fp ∈ s.entries) : s.markSeen fp = s := by
  simp [SeenSet.markSeen, hmem]

theorem SeenSet.markSeen_entries_of_not_mem {F : Type} [DecidableEq F] (s : SeenSet F) (fp : F)
    (hnew : fp ∉ s.entries) :
    (s.markSeen fp).entries =
      (s.entries ++ [fp]).drop ((s.entries ++ [fp]).length - s.capacity) := by
  simp [SeenSet.markSeen, hnew]

theorem SeenSet.markSeen_length_le {F : Type} [DecidableEq F] (s : SeenSet F) (fp : F)
    (hle : s.entries.length ≤ s.capacity) :
    (s.markSeen fp).entries.length ≤ s.capacity := by
  by_cases hmem : fp ∈ s.entries
  · rw [SeenSet.markSeen_of_mem s fp hmem]; exact hle
  · rw [SeenSet.markSeen_entries_of_not_mem s fp hmem]
    simp only [List.length_drop, List.length_append, List.length_singleton]
    omega

theorem SeenSet.markAll_capacity {F : Type} [DecidableEq F] (s : SeenSet F) (fps : List F) :
    (s.markAll fps).capacity = s.capacity := by
  induction fps generalizing s with
  | nil => rfl
  | cons fp rest ih => simp [SeenSet.markAll, ih, SeenSet.markSeen_capacity]

theorem SeenSet.markAll_length_le {F : Type} [DecidableEq F] (s : SeenSet F) (fps : List F)
    (hle : s.entries.length ≤ s.capacity) :
    (s.markAll fps).entries.length ≤ s.capacity := by
  induction fps generalizing s with
  | nil => exact hle
  | cons fp rest ih =>
    have h1 := ih (s.markSeen fp)
      (by rw [SeenSet.markSeen_capacity]; exact SeenSet.markSeen_length_le s fp hle)
    rw [SeenSet.markSeen_capacity] at h1
    exact h1

theorem SeenSet.markAll_entries_of_nodup {F : Type} [DecidableEq F] (s : SeenSet F)
    (fps : List F) (hle : s.entries.length ≤ s.capacity) (hnd : (s.entries ++ fps).Nodup) :
    (s.markAll fps).entries =
      (s.entries ++ fps).drop ((s.entries ++ fps).length - s.capacity) := by
  induction fps generalizing s with
  | nil =>
    have h0 : s.entries.length - s.capacity = 0 := by omega
    simp [SeenSet.markAll, h0]
  | cons fp rest ih =>
    have hnew : fp ∉ s.entries := by
      intro hmem
      exact (List.nodup_append.mp hnd).2.2 hmem (List.mem_cons_self fp rest)
    have hent := SeenSet.markSeen_entries_of_not_mem s fp hnew
    have hcap := SeenSet.markSeen_capacity s fp
    have hle1 : (s.markSeen fp).entries.length ≤ (s.markSeen fp).capacity := by
      rw [hcap]; exact SeenSet.markSeen_length_le s fp hle
    have hd : (s.entries ++ [fp]).length - s.capacity ≤ (s.entries ++ [fp]).length :=
      Nat.sub_le _ _
    have happ : (s.markSeen fp).entries ++ rest =
        (s.entries ++ fp :: rest).drop ((s.entries ++ [fp]).length - s.capacity) := by
      rw [hent, ← List.drop_append_of_le_length hd]
      simp
    have hnd1 : ((s.markSeen fp).entries ++ rest).Nodup := by
      rw [happ]
      exact List.Nodup.sublist (List.drop_sublist _ _) hnd
    have hih := ih (s.markSeen fp) hle1 hnd1
    have hlen : (s.markSeen fp).entries.length =
        (s.entries ++ [fp]).length - ((s.entries ++ [fp]).length - s.capacity) := by
      rw [hent, List.length_drop]
    simp only [SeenSet.markAll]
    rw [hih, happ, List.drop_drop, hcap]
    congr 1
    simp only [List.length_drop, List.length_append, List.length_cons, List.length_singleton,
      List.length_nil] at hlen ⊢
    omega

theorem receiveAll_fingerprints_nodup {F : Type} [DecidableEq F] (fingerprint : Message → F)
    (msgs : List Message) (s : SeenSet F) (hnd : s.entries.Nodup)
    (hfit : (s.entries ++ msgs.map fingerprint).toFinset.card ≤ s.capacity) :
    ((receiveAll fingerprint s msgs).map fingerprint).Nodup ∧
    ∀ m ∈ receiveAll fingerprint s msgs, fingerprint m ∉ s.entries := by
  induction msgs generalizing s with
  | nil => simp [receiveAll]
  | cons m rest ih =>
    by_cases hseen : fingerprint m ∈ s.entries
    · have hrec : receive fingerprint s m = (s, []) := by
        simp [receive, SeenSet.hasSeen, hseen]
      have hfit1 : (s.entries ++ rest.map fingerprint).toFinset.card ≤ s.capacity := by
        refine le_trans (Finset.card_le_card ?_) hfit
        intro x hx
        simp only [List.toFinset_append, Finset.mem_union, List.mem_toFinset, List.map_cons,
          List.mem_cons] at hx ⊢
        rcases hx with hx | hx
        · exact Or.inl hx
        · exact Or.inr (Or.inr hx)
      simpa [receiveAll, hrec] using ih s hnd hfit1
    · have hrec : receive fingerprint s m = (s.markSeen (fingerprint m), [m]) := by
        simp [receive, SeenSet.hasSeen, hseen]
      have hnd1 : (s.entries ++ [fingerprint m]).Nodup := by
        rw [List.nodup_append]
        refine ⟨hnd, List.nodup_singleton _, ?_⟩
        intro x hx hx1
        rw [List.mem_singleton] at hx1
        exact hseen (hx1 ▸ hx)
      have hroom : (s.entries ++ [fingerprint m]).length ≤ s.capacity := by
        rw [← List.toFinset_card_of_nodup hnd1]
        refine le_trans (Finset.card_le_card ?_) hfit
        intro x hx
        simp only [List.toFinset_append, Finset.mem_union, List.mem_toFinset, List.map_cons,
          List.mem_cons, List.mem_singleton, List.toFinset_cons, List.toFinset_nil,
          Finset.mem_insert, Finset.not_mem_empty, or_false] at hx ⊢
        rcases hx with hx | hx
        · exact Or.inl hx
        · exact Or.inr (Or.inl hx)
      have hent : (s.markSeen (fingerprint m)).entries = s.entries ++ [fingerprint m] := by
        rw [SeenSet.markSeen_entries_of_not_mem s _ hseen, Nat.sub_eq_zero_of_le hroom]
        rfl
      have hfit1 : ((s.markSeen (fingerprint m)).entries ++ rest.map fingerprint).toFinset.card ≤
          (s.markSeen (fingerprint m)).capacity := by
        rw [SeenSet.markSeen_capacity, hent]
        simpa using hfit
      obtain ⟨ih1, ih2⟩ := ih (s.markSeen (fingerprint m)) (by rw [hent]; exact hnd1) hfit1
      rw [hent] at ih2
      simp only [receiveAll, hrec, List.singleton_append, List.map_cons, List.nodup_cons,
        List.mem_map, List.mem_cons, forall_eq_or_imp]
      refine ⟨⟨?_, ih1⟩, hseen, ?_⟩
      · rintro ⟨m1, hm1, heq⟩
        exact ih2 m1 hm1 (by simp [heq])
      · intro m1 hm1 hmem
        exact ih2 m1 hm1 (by simp [hmem])

theorem receiveAll_append {F : Type} [DecidableEq F] (fingerprint : Message → F)
    (s : SeenSet F) (xs ys : List Message) :
    receiveAll fingerprint s (xs ++ ys) =
      receiveAll fingerprint s xs ++ receiveAll fingerprint (seenAfter fingerprint s xs) ys := by
  induction xs generalizing s with
  | nil => rfl
  | cons m rest ih => simp [receiveAll, seenAfter, ih]

theorem seenAfter_append {F : Type} [DecidableEq F] (fingerprint : Message → F)
    (s : SeenSet F) (xs ys : List Message) :
    seenAfter fingerprint s (xs ++ ys) =
      seenAfter fingerprint (seenAfter fingerprint s xs) ys := by
  induction xs generalizing s with
  | nil => rfl
  | cons m rest ih => simp [seenAfter, ih]

theorem seenAfter_capacity {F : Type} [DecidableEq F] (fingerprint : Message → F)
    (s : SeenSet F) (xs : List Message) :
    (seenAfter fingerprint s xs).capacity = s.capacity := by
  induction xs generalizing s with
  | nil => rfl
  | cons m rest ih =>
    simp only [seenAfter, ih, receive]
    split
    · rfl
    · exact SeenSet.markSeen_capacity s _

theorem lastN_snoc {α : Type} (c : Nat) (l : List α) (x : α) :
    lastN c (lastN c l ++ [x]) = lastN c (l ++ [x]) := by
  unfold lastN
  have hd : l.length - c ≤ l.length := Nat.sub_le _ _
  rw [← List.drop_append_of_le_length hd, List.drop_drop]
  congr 1
  simp only [List.length_drop, List.length_append, List.length_singleton]
  omega

theorem seenAfter_entries {F : Type} [DecidableEq F] (fingerprint : Message → F)
    (capacity : Nat) (pre : List Message) :
    (seenAfter fingerprint (SeenSet.empty capacity) pre).entries =
      lastN capacity ((receiveAll fingerprint (SeenSet.empty capacity) pre).map fingerprint) := by
  induction pre using List.reverseRecOn with
  | nil => simp [seenAfter, receiveAll, lastN, SeenSet.empty]
  | append_singleton pre m ih =>
    have hcap := seenAfter_capacity fingerprint (SeenSet.empty capacity : SeenSet F) pre
    rw [seenAfter_append, receiveAll_append]
    simp only [seenAfter, receiveAll, List.append_nil, receive, SeenSet.hasSeen]
    by_cases hseen :
        fingerprint m ∈ (seenAfter fingerprint (SeenSet.empty capacity) pre).entries
    · simp [hseen, ih.symm]
    · simp only [hseen, decide_False, Bool.false_eq_true, ↓reduceIte, List.map_append,
        List.map_cons, List.map_nil]
      rw [SeenSet.markSeen_entries_of_not_mem _ _ hseen, hcap, ih]
      exact lastN_snoc capacity _ _

theorem receiveAll_snoc {F : Type} [DecidableEq F] (fingerprint : Message → F)
    (capacity : Nat) (pre : List Message) (m : Message) :
    receiveAll fingerprint (SeenSet.empty capacity) (pre ++ [m]) =
      receiveAll fingerprint (SeenSet.empty capacity) pre ++
        (if fingerprint m ∈ lastN capacity
            ((receiveAll fingerprint (SeenSet.empty capacity) pre).map fingerprint)
         then [] else [m]) := by
  rw [receiveAll_append, ← seenAfter_entries]
  simp only [receiveAll, List.append_nil, receive, SeenSet.hasSeen]
  by_cases hseen :
      fingerprint m ∈ (seenAfter fingerprint (SeenSet.empty capacity) pre).entries
  · simp [hseen]
  · simp [hseen]

theorem receiveAll_separated {F : Type} [DecidableEq F] (fingerprint : Message → F)
    (capacity : Nat) (incoming : List Message) (i j : Nat) (x y : Message) (hij : i < j)
    (hx : (receiveAll fingerprint (SeenSet.empty capacity) incoming)[i]? = some x)
    (hy : (receiveAll fingerprint (SeenSet.empty capacity) incoming)[j]? = some y)
    (hfp : fingerprint x = fingerprint y) : i + capacity < j := by
  induction incoming using List.reverseRecOn generalizing i j x y with
  | nil => simp [receiveAll] at hx
  | append_singleton pre m ih =>
    rw [receiveAll_snoc] at hx hy
    by_cases hseen : fingerprint m ∈ lastN capacity
        ((receiveAll fingerprint (SeenSet.empty capacity) pre).map fingerprint)
    · simp only [hseen, ↓reduceIte, List.append_nil] at hx hy
      exact ih i j x y hij hx hy hfp
    · simp only [hseen, ↓reduceIte] at hx hy
      have hjlen : j < (receiveAll fingerprint (SeenSet.empty capacity) pre ++ [m]).length := by
        by_contra hge
        rw [List.getElem?_eq_none (Nat.le_of_not_lt hge)] at hy
        exact Option.noConfusion hy
      rw [List.length_append, List.length_singleton] at hjlen
      have hilen : i < (receiveAll fingerprint (SeenSet.empty capacity) pre).length := by omega
      rw [List.getElem?_append_left hilen] at hx
      by_cases hjl : j < (receiveAll fingerprint (SeenSet.empty capacity) pre).length
      · rw [List.getElem?_append_left hjl] at hy
        exact ih i j x y hij hx hy hfp
      · have hjeq : j = (receiveAll fingerprint (SeenSet.empty capacity) pre).length := by omega
        have hym : y = m := by
          rw [hjeq, List.getElem?_append_right (Nat.le_refl _)] at hy
          simpa using hy.symm
        by_contra hnot
        apply hseen
        rw [← hym, ← hfp]
        unfold lastN
        rw [List.mem_iff_getElem?]
        refine ⟨i - ((receiveAll fingerprint (SeenSet.empty capacity) pre).length - capacity), ?_⟩
        rw [List.getElem?_drop, List.length_map]
        have hidx : (receiveAll fingerprint (SeenSet.empty capacity) pre).length - capacity +
            (i - ((receiveAll fingerprint (SeenSet.empty capacity) pre).length - capacity)) = i := by
          omega
        rw [hidx, List.getElem?_map, hx]
        rfl

/-! ## The subscriber loop -/

theorem publishCalls_replicate (topic : Topic) (data : List UInt8) (n : Nat) :
    publishCalls (List.replicate n (Event.topicPublish topic data)) =
      List.replicate n (topic, data) := by
  induction n with
  | zero => rfl
  | succ n ih => simp [List.replicate_succ, publishCalls, ih]

theorem publisherLoop_run (topicPublish : Nat → Topic → List UInt8 → Option Error)
    (topic : Topic) (k n : Nat) :
    publisherLoop topicPublish topic k n =
      ⟨List.replicate n (Event.topicPublish topic heartbeat.toBytes), Outcome.waiting⟩ := by
  induction n generalizing k with
  | zero => rfl
  | succ n ih => simp [publisherLoop, ih, Exec.after, Publish, List.replicate_succ]

theorem startup_trace_head (env : Env) (publisher subscriber : Bool) :
    ∃ rest, (startup env publisher subscriber).trace = Event.libp2pNew :: rest := by
  unfold startup
  split
  · exact ⟨_, rfl⟩
  · split
    · exact ⟨_, rfl⟩
    · exact ⟨_, rfl⟩

theorem connectCalls_append (xs ys : List Event) :
    connectCalls (xs ++ ys) = connectCalls xs ++ connectCalls ys := by
  induction xs with
  | nil => rfl
  | cons e xs ih => cases e <;> simp [connectCalls, ih]

theorem connectCalls_HandlePeerFound (n : discoveryNotifee)
    (connect : AddrInfo → Option Error) (pi : AddrInfo) :
    connectCalls (n.HandlePeerFound connect pi).trace = [pi] := by
  unfold discoveryNotifee.HandlePeerFound
  cases connect pi <;> rfl

theorem subscriberLoop_ok_trace (h : Host) (msgs : List Message) :
    (subscriberLoop h (msgs.map Except.ok)).trace =
      (msgs.filter (fun m => decide (m.ReceivedFrom ≠ h.ID))).map
        (fun m => Event.log (receivedRecord m)) := by
  induction msgs with
  | nil => rfl
  | cons m rest ih =>
    by_cases hm : m.ReceivedFrom = h.ID
    · simp [subscriberLoop, hm, ih]
    · simp [subscriberLoop, hm, ih, Exec.after]

theorem subscriberLoop_append_skip (h : Host) (m : Message) (hself : m.ReceivedFrom = h.ID)
    (pre post : List (Except Error Message)) :
    subscriberLoop h (pre ++ Except.ok m :: post) = subscriberLoop h (pre ++ post) := by
  induction pre with
  | nil => simp [subscriberLoop, hself]
  | cons r pre ih =>
    cases r with
    | error e => simp [subscriberLoop]
    | ok m1 =>
      by_cases hm : m1.ReceivedFrom = h.ID
      · simp [subscriberLoop, hm, ih]
      · simp [subscriberLoop, hm, ih]

theorem subscriberLoop_trace_mem (h : Host) (l : List (Except Error Message)) (e : Event)
    (he : e ∈ (subscriberLoop h l).trace) :
    ∃ m, Except.ok m ∈ l ∧ m.ReceivedFrom ≠ h.ID ∧ e = Event.log (receivedRecord m) := by
  induction l with
  | nil => simp [subscriberLoop] at he
  | cons r rest ih =>
    cases r with
    | error err => simp [subscriberLoop] at he
    | ok m1 =>
      by_cases hm : m1.ReceivedFrom = h.ID
      · simp only [subscriberLoop, hm, ↓reduceIte] at he
        obtain ⟨m, hmem, hne, heq⟩ := ih he
        exact ⟨m, List.mem_cons_of_mem _ hmem, hne, heq⟩
      · simp only [subscriberLoop, hm, ↓reduceIte, Exec.after, List.singleton_append,
          List.mem_cons] at he
        rcases he with he | he
        · exact ⟨m1, List.mem_cons_self _ _, hm, he⟩
        · obtain ⟨m, hmem, hne, heq⟩ := ih he
          exact ⟨m, List.mem_cons_of_mem _ hmem, hne, heq⟩

theorem subscriberBranch_publishes_nothing (env : Env) (h : Host) (t : Option Topic)
    (topic : Topic) (data : List UInt8) :
    Event.topicPublish topic data ∉ (subscriberBranch env h t).trace := by
  intro he
  cases t with
  | none => simp [subscriberBranch] at he
  | some t1 =>
    cases hs : env.subscribe with
    | some err => simp [subscriberBranch, hs, Exec.after] at he
    | none =>
      have he1 : Event.topicPublish topic data ∈ (subscriberLoop h env.next).trace := by
        simpa [subscriberBranch, hs, Exec.after] using he
      obtain ⟨m, _, _, heq⟩ := subscriberLoop_trace_mem h env.next _ he1
      exact Event.noConfusion heq

theorem main_subscriber_publishes_nothing (env : Env) (publisher : Bool) (topic : Topic)
    (data : List UInt8) :
    Event.topicPublish topic data ∉ (main env publisher true).trace := by
  intro he
  cases publisher
  · simp only [main, startup, Bool.false_and, Bool.not_false, Bool.not_true, Bool.and_false,
      Bool.false_eq_true, ↓reduceIte] at he
    split at he
    · simp at he
    · split at he
      · simp at he
      · split at he
        · simp [Exec.after, setupDiscovery] at he
        · have he1 := he
          simp only [Exec.after, setupDiscovery, List.mem_append, List.mem_cons,
            List.mem_singleton, List.not_mem_nil, reduceCtorEq, false_or, or_false] at he1
          exact subscriberBranch_publishes_nothing env _ _ topic data he1
  · simp [main] at he

theorem main_received_only_subscriber (env : Env) (publisher subscriber : Bool) (m : Message)
    (he : Event.log (receivedRecord m) ∈ (main env publisher subscriber).trace) :
    subscriber = true := by
  cases subscriber
  · exfalso
    cases publisher
    · simp [main, receivedRecord] at he
    · simp only [main, startup, Bool.true_and, Bool.not_false, Bool.not_true, Bool.false_and,
        Bool.false_eq_true, ↓reduceIte] at he
      split at he
      · simp [receivedRecord] at he
      · split at he
        · simp at he
        · simp only [Exec.after, setupDiscovery] at he
          split at he
          · simp [receivedRecord] at he
          · simp only [Exec.after] at he
            split at he
            · simp [publisherBranch, receivedRecord] at he
            · simp [publisherBranch, publisherLoop_run, Exec.after, receivedRecord] at he
  · rfl

theorem subscriberBranch_received (env : Env) (h : Host) (t : Option Topic) (m : Message)
    (he : Event.log (receivedRecord m) ∈ (subscriberBranch env h t).trace) :
    Event.log (receivedRecord m) ∈ (subscriberLoop h env.next).trace := by
  cases t with
  | none => simp [subscriberBranch] at he
  | some t1 =>
    cases hs : env.subscribe with
    | some err => simp [subscriberBranch, hs, Exec.after] at he
    | none => simpa [subscriberBranch, hs, Exec.after] using he

theorem main_received_from_loop (env : Env) (publisher : Bool) (h : Host) (m : Message)
    (hhost : env.libp2pNew = Except.ok h)
    (he : Event.log (receivedRecord m) ∈ (main env publisher true).trace) :
    Event.log (receivedRecord m) ∈ (subscriberLoop h env.next).trace := by
  cases publisher
  · simp only [main, startup, hhost, Bool.false_and, Bool.not_false, Bool.not_true,
      Bool.and_false, Bool.false_eq_true, ↓reduceIte] at he
    split at he
    · simp at he
    · split at he
      · simp [Exec.after, setupDiscovery, receivedRecord] at he
      · simp [Exec.after, setupDiscovery, receivedRecord] at he
        exact subscriberBranch_received env h _ m he
  · simp [main, receivedRecord] at he

/-- C1: in a run of `main` on the host `h`, no 'received message' record is
written for a message whose origin (`From`) is this node, at any position of what
the subscription hands over, given that every such message either is handed over
by this node's own router (`ReceivedFrom` is this node, the local publish path) or
was first published by this run (the run handed its payload to `topic.Publish`).
The loop skips every message received from this node itself, wherever it stands
in the incoming sequence, and the run that has the subscriber loop publishes
nothing. -/
theorem main_never_processes_own_origin (env : Env) (publisher subscriber : Bool) (h : Host)
    (hhost : env.libp2pNew = Except.ok h)
    (horigin : ∀ m, Except.ok m ∈ env.next → m.From = h.ID →
      m.ReceivedFrom = h.ID ∨
      ∃ topic, Event.topicPublish topic m.Data ∈ (main env publisher subscriber).trace) :
    (∀ m, Except.ok m ∈ env.next → m.From = h.ID →
      Event.log (receivedRecord m) ∉ (main env publisher subscriber).trace) ∧
    (∀ (m : Message) (pre post : List (Except Error Message)), m.ReceivedFrom = h.ID →
      subscriberLoop h (pre ++ Except.ok m :: post) = subscriberLoop h (pre ++ post)) ∧
    (∀ topic data, Event.topicPublish topic data ∉ (main env publisher true).trace) := by
  refine ⟨?_, ?_, ?_⟩
  · intro m hmem hfrom hrec
    have hsub := main_received_only_subscriber env publisher subscriber m hrec
    subst hsub
    rcases horigin m hmem hfrom with hself | ⟨topic, hpub⟩
    · have hloop := main_received_from_loop env publisher h m hhost hrec
      obtain ⟨m1, _, hne, heq⟩ := subscriberLoop_trace_mem h env.next _ hloop
      apply hne
      simp only [receivedRecord, Event.log.injEq, Record.mk.injEq, List.cons.injEq,
        Prod.mk.injEq, FieldVal.pretty.injEq] at heq
      rw [← heq.2.1.1.2]
      exact hself
    · exact main_subscriber_publishes_nothing env publisher topic m.Data hpub
  · intro m pre post hself
    exact subscriberLoop_append_skip h m hself pre post
  · intro topic data
    exact main_subscriber_publishes_nothing env publisher topic data

theorem main_never_processes_own_origin_witness :
    ((quietEnv hostC [Except.ok heartbeatOfAViaB, Except.ok heartbeatOfB] 0).libp2pNew =
        Except.ok hostC ∧
      heartbeatOfAViaB.From ≠ hostC.ID ∧ heartbeatOfB.From ≠ hostC.ID ∧
      Event.topicPublish ⟨"test"⟩ (GoString.lit "heartbeat").toBytes ∉
        (main (quietEnv hostC [Except.ok heartbeatOfAViaB, Except.ok heartbeatOfB] 0)
          false true).trace) ∧
    ((quietEnv hostA [Except.ok heartbeatOfB, Except.ok ownHeartbeatOfA] 0).libp2pNew =
        Except.ok hostA ∧
      ownHeartbeatOfA.From = hostA.ID ∧
      ownHeartbeatOfA.ReceivedFrom = hostA.ID ∧
      Event.log (receivedRecord ownHeartbeatOfA) ∉
        (main (quietEnv hostA [Except.ok heartbeatOfB, Except.ok ownHeartbeatOfA] 0)
          false true).trace ∧
      subscriberLoop hostA ([Except.ok heartbeatOfB] ++ Except.ok ownHeartbeatOfA :: []) =
        subscriberLoop hostA ([Except.ok heartbeatOfB] ++ [])) := by
  have hatC := main_never_processes_own_origin
    (quietEnv hostC [Except.ok heartbeatOfAViaB, Except.ok heartbeatOfB] 0)
    false true hostC rfl
    (by
      intro m hmem hfrom
      have hm : m = heartbeatOfAViaB ∨ m = heartbeatOfB := by
        simpa [quietEnv] using hmem
      rcases hm with hm | hm
      · subst hm
        exact absurd hfrom (by decide)
      · subst hm
        exact absurd hfrom (by decide))
  have hatA := main_never_processes_own_origin
    (quietEnv hostA [Except.ok heartbeatOfB, Except.ok ownHeartbeatOfA] 0)
    false true hostA rfl
    (by
      intro m hmem hfrom
      have hm : m = heartbeatOfB ∨ m = ownHeartbeatOfA := by
        simpa [quietEnv] using hmem
      rcases hm with hm | hm
      · subst hm
        exact absurd hfrom (by decide)
      · subst hm
        exact Or.inl rfl)
  exact ⟨⟨rfl, by decide, by decide, hatC.2.2 _ _⟩,
    ⟨rfl, rfl, rfl, hatA.1 ownHeartbeatOfA (by simp [quietEnv]) rfl,
      hatA.2.1 ownHeartbeatOfA [Except.ok heartbeatOfB] [] rfl⟩⟩

/-- C2, as stated, fails: for a heartbeat first published by `A` that reaches node
`C` through the forwarding peer `B`, the subscriber loop of `C` reports `B`, not
the origin `A`. -/
theorem forwarded_message_reports_forwarder :
    heartbeatOfAViaB.From = peerA ∧ peerB ≠ peerA ∧
    (subscriberLoop hostC [Except.ok heartbeatOfAViaB]).trace =
      [Event.log ⟨Level.info,
        [("from", FieldVal.pretty peerB), ("msg", FieldVal.str (GoString.lit "heartbeat"))],
        "received message"⟩] ∧
    (receivedRecord heartbeatOfAViaB).field "from" ≠
      some (FieldVal.pretty heartbeatOfAViaB.From) := by
  decide

/-- C2, amended: the subscriber loop writes one record for each message that was
not received from this node itself, in order, and the identity it reports in the
field `from` is the message's `ReceivedFrom`, the peer that handed the message to
this node; that is the origin exactly when the message came straight from its
origin. -/
theorem subscriberLoop_reports_received_from (h : Host) (msgs : List Message) :
    (subscriberLoop h (msgs.map Except.ok)).trace =
      (msgs.filter (fun m => decide (m.ReceivedFrom ≠ h.ID))).map
        (fun m => Event.log (receivedRecord m)) ∧
    ∀ m : Message,
      (receivedRecord m).field "from" = some (FieldVal.pretty m.ReceivedFrom) ∧
      ((receivedRecord m).field "from" = some (FieldVal.pretty m.From) ↔
        m.ReceivedFrom = m.From) := by
  refine ⟨subscriberLoop_ok_trace h msgs, fun m => ?_⟩
  have hf : (receivedRecord m).field "from" = some (FieldVal.pretty m.ReceivedFrom) := rfl
  exact ⟨hf, by rw [hf]; simp⟩

/-- C3: `Publish` hands the topic the bytes of `s`, `string([]byte(s))` is `s`,
and for a message carrying exactly those bytes that the subscriber loop processes
the text it reports in the field `msg` is `s`. -/
theorem payload_round_trip (topicPublish : Topic → List UInt8 → Option Error) (topic : Topic)
    (s : GoString) (h : Host) (m : Message)
    (hpub : Event.topicPublish topic m.Data ∈ (Publish topicPublish topic s).trace)
    (hrecv : m.ReceivedFrom ≠ h.ID) :
    (Publish topicPublish topic s).trace = [Event.topicPublish topic s.toBytes] ∧
    GoString.ofBytes s.toBytes = s ∧
    (subscriberLoop h [Except.ok m]).trace =
      [Event.log ⟨Level.info,
        [("from", FieldVal.pretty m.ReceivedFrom), ("msg", FieldVal.str s)],
        "received message"⟩] := by
  have hdata : m.Data = s.toBytes := by
    simpa [Publish] using hpub
  refine ⟨rfl, rfl, ?_⟩
  simp [subscriberLoop, hrecv, Exec.after, receivedRecord, Message.GetData, hdata,
    GoString.ofBytes, GoString.toBytes]

theorem payload_round_trip_witness :
    Event.topicPublish ⟨"test"⟩ heartbeatOfAViaB.Data ∈
      (Publish (fun _ _ => none) ⟨"test"⟩ (GoString.lit "heartbeat")).trace ∧
    heartbeatOfAViaB.ReceivedFrom ≠ hostC.ID ∧
    (subscriberLoop hostC [Except.ok heartbeatOfAViaB]).trace =
      [Event.log ⟨Level.info,
        [("from", FieldVal.pretty heartbeatOfAViaB.ReceivedFrom),
         ("msg", FieldVal.str (GoString.lit "heartbeat"))],
        "received message"⟩] :=
  ⟨by decide, by decide,
    (payload_round_trip (fun _ _ => none) ⟨"test"⟩ (GoString.lit "heartbeat") hostC
      heartbeatOfAViaB (by decide) (by decide)).2.2⟩

/-- C4: `Publish` makes exactly one `topic.Publish` call, on the given topic with
the bytes of `msg`, and returns exactly what that call returned, adding no error
and swallowing none.  With `topic.Publish` as the spec describes it, `Publish`
returns an error only for the local precondition failure (the topic is not
joined), and never for a per-peer delivery failure: the result is the same
whatever the writes to the member peers give, and with a joined topic it is nil
even when every write fails, each peer being written to once and the failing ones
removed. -/
theorem Publish_returns_the_topic_result {F : Type} [DecidableEq F]
    (topicPublish : Topic → List UInt8 → Option Error) (topic : Topic) (msg : GoString)
    (st : TopicState F) (self : PeerID) (seqno : List UInt8) (fingerprint : Message → F) :
    (Publish topicPublish topic msg).trace = [Event.topicPublish topic msg.toBytes] ∧
    publishCalls (Publish topicPublish topic msg).trace = [(topic, msg.toBytes)] ∧
    (Publish topicPublish topic msg).result = topicPublish topic msg.toBytes ∧
    ((Publish topicPublish topic msg).result = none ↔ topicPublish topic msg.toBytes = none) ∧
    (∀ e, (Publish topicPublish topic msg).result = some e ↔
      topicPublish topic msg.toBytes = some e) ∧
    ((Publish (fun _ data => (st.publish self seqno fingerprint data).result) topic msg).result =
        none ↔ st.joined = true) ∧
    (∀ members : List (PeerID × Option Error),
      (Publish (fun _ data =>
          (TopicState.publish ⟨st.joined, members, st.seen⟩ self seqno fingerprint data).result)
        topic msg).result =
      (Publish (fun _ data => (st.publish self seqno fingerprint data).result) topic msg).result) ∧
    (st.joined = true →
      (st.publish self seqno fingerprint msg.toBytes).writes = st.members.map Prod.fst ∧
      (∀ p e, (p, some e) ∉ (st.publish self seqno fingerprint msg.toBytes).state.members) ∧
      (∀ p, (p, none) ∈ st.members →
        (p, none) ∈ (st.publish self seqno fingerprint msg.toBytes).state.members)) := by
  refine ⟨rfl, rfl, rfl, Iff.rfl, fun _ => Iff.rfl, ?_, ?_, ?_⟩
  · cases hj : st.joined <;> simp [Publish, TopicState.publish, hj]
  · intro members
    cases hj : st.joined <;> simp [Publish, TopicState.publish, hj]
  · intro hj
    simp only [TopicState.publish, hj, ↓reduceIte, List.mem_filter, true_and]
    refine ⟨?_, ?_⟩
    · intro p e hmem
      simp at hmem
    · intro p hmem
      exact ⟨hmem, rfl⟩

theorem Publish_returns_the_topic_result_witness :
    (⟨true, [(peerB, some ⟨"stream reset"⟩), (peerC, none)], SeenSet.empty 100⟩ :
      TopicState (PeerID × List UInt8)).joined = true ∧
    (Publish (fun _ data =>
        (TopicState.publish
          (⟨true, [(peerB, some ⟨"stream reset"⟩), (peerC, none)], SeenSet.empty 100⟩ :
            TopicState (PeerID × List UInt8)) peerA [1] originSeqno data).result)
      ⟨"test"⟩ (GoString.lit "heartbeat")).result = none ∧
    (TopicState.publish
        (⟨true, [(peerB, some ⟨"stream reset"⟩), (peerC, none)], SeenSet.empty 100⟩ :
          TopicState (PeerID × List UInt8)) peerA [1] originSeqno
        (GoString.lit "heartbeat").toBytes).writes = [peerB, peerC] :=
  ⟨rfl,
    (Publish_returns_the_topic_result (fun _ _ => none) ⟨"test"⟩ (GoString.lit "heartbeat")
      (⟨true, [(peerB, some ⟨"stream reset"⟩), (peerC, none)], SeenSet.empty 100⟩ :
        TopicState (PeerID × List UInt8)) peerA [1] originSeqno).2.2.2.2.2.1.mpr rfl,
    ((Publish_returns_the_topic_result (fun _ _ => none) ⟨"test"⟩ (GoString.lit "heartbeat")
      (⟨true, [(peerB, some ⟨"stream reset"⟩), (peerC, none)], SeenSet.empty 100⟩ :
        TopicState (PeerID × List UInt8)) peerA [1] originSeqno).2.2.2.2.2.2.2 rfl).1⟩

/-- C5, as stated, fails: `B` is found twice and the first `Connect` returns nil,
so `B` is connected when the second event arrives; the handler still calls
`Connect` for `B` a second time. -/
theorem duplicate_peer_found_connects_again :
    (fun (_ : Nat) (_ : AddrInfo) => (none : Option Error)) 0 addrInfoB = none ∧
    peerFoundEvents ⟨hostA⟩ (fun _ _ => none) 0 [addrInfoB, addrInfoB] =
      [Event.log ⟨Level.debug, [("id", FieldVal.pretty peerB)], "discovered new peer"⟩,
       Event.connect addrInfoB,
       Event.log ⟨Level.debug, [("id", FieldVal.pretty peerB)], "discovered new peer"⟩,
       Event.connect addrInfoB] ∧
    connectCalls (peerFoundEvents ⟨hostA⟩ (fun _ _ => none) 0 [addrInfoB, addrInfoB]) =
      [addrInfoB, addrInfoB] := by
  decide

/-- C5, amended: the discovery handler keeps no state of its own and calls
`Connect` exactly once for every peer-found event, in order, whatever the earlier
calls returned and whether or not the peer is already connected. -/
theorem peerFound_connects_once_per_event (n : discoveryNotifee)
    (connect : Nat → AddrInfo → Option Error) (k : Nat) (events : List AddrInfo) :
    connectCalls (peerFoundEvents n connect k events) = events := by
  induction events generalizing k with
  | nil => rfl
  | cons pi rest ih =>
    simp [peerFoundEvents, connectCalls_append, connectCalls_HandlePeerFound, ih]

/-- C6: `HandlePeerFound` makes exactly one `Connect` call, for the address info it
was given, writes no fatal record, and returns; when the call fails, what it does
is the debug record, the call, and exactly one error record naming the peer and
the error, and nothing after that. -/
theorem HandlePeerFound_connects_once (n : discoveryNotifee)
    (connect : AddrInfo → Option Error) (pi : AddrInfo) :
    connectCalls (n.HandlePeerFound connect pi).trace = [pi] ∧
    (∀ r, Event.log r ∈ (n.HandlePeerFound connect pi).trace → r.level ≠ Level.fatal) ∧
    (connect pi = none →
      (n.HandlePeerFound connect pi).trace =
        [Event.log ⟨Level.debug, [("id", FieldVal.pretty pi.ID)], "discovered new peer"⟩,
         Event.connect pi]) ∧
    (∀ err, connect pi = some err →
      (n.HandlePeerFound connect pi).trace =
        [Event.log ⟨Level.debug, [("id", FieldVal.pretty pi.ID)], "discovered new peer"⟩,
         Event.connect pi,
         Event.log ⟨Level.error, [("id", FieldVal.pretty pi.ID), ("err", FieldVal.err err)],
           "error connecting to peer"⟩]) := by
  refine ⟨connectCalls_HandlePeerFound n connect pi, ?_, ?_, ?_⟩
  · intro r hr
    unfold discoveryNotifee.HandlePeerFound at hr
    cases hc : connect pi <;> simp [hc] at hr
    · rw [hr]; simp
    · rcases hr with hr | hr <;> rw [hr] <;> simp
  · intro hc
    simp [discoveryNotifee.HandlePeerFound, hc]
  · intro err hc
    simp [discoveryNotifee.HandlePeerFound, hc]

theorem HandlePeerFound_connects_once_witness :
    (fun (_ : AddrInfo) => some (Error.mk "dial backoff")) addrInfoB =
      some (Error.mk "dial backoff") ∧
    (discoveryNotifee.HandlePeerFound ⟨hostA⟩ (fun _ => some ⟨"dial backoff"⟩) addrInfoB).trace =
      [Event.log ⟨Level.debug, [("id", FieldVal.pretty addrInfoB.ID)], "discovered new peer"⟩,
       Event.connect addrInfoB,
       Event.log ⟨Level.error,
         [("id", FieldVal.pretty addrInfoB.ID), ("err", FieldVal.err ⟨"dial backoff"⟩)],
         "error connecting to peer"⟩] :=
  ⟨rfl,
    (HandlePeerFound_connects_once ⟨hostA⟩ (fun _ => some ⟨"dial backoff"⟩) addrInfoB).2.2.2
      ⟨"dial backoff"⟩ rfl⟩

/-- C9: after `n` ticks the publisher loop has made exactly `n` calls of
`topic.Publish`, one per tick, each with the payload "heartbeat" on the joined
topic, and is waiting for the next tick; this holds whatever the calls return, so
a failed publish neither stops the loop, nor ends the process, nor is retried. -/
theorem publisherLoop_one_publish_per_tick
    (topicPublish : Nat → Topic → List UInt8 → Option Error) (topic : Topic) (k n : Nat) :
    (publisherLoop topicPublish topic k n).trace =
      List.replicate n (Event.topicPublish topic (GoString.lit "heartbeat").toBytes) ∧
    publishCalls (publisherLoop topicPublish topic k n).trace =
      List.replicate n (topic, (GoString.lit "heartbeat").toBytes) ∧
    (publishCalls (publisherLoop topicPublish topic k n).trace).length = n ∧
    (publisherLoop topicPublish topic k n).outcome = Outcome.waiting ∧
    (publisherLoop topicPublish topic k (n + 1)).trace =
      (publisherLoop topicPublish topic k n).trace ++
        [Event.topicPublish topic (GoString.lit "heartbeat").toBytes] ∧
    (∀ env : Env, env.topicPublish = topicPublish → env.ticks = n →
      publisherBranch env (some topic) =
        ⟨Event.log ⟨Level.info, [], "publishing..."⟩ ::
          List.replicate n (Event.topicPublish topic (GoString.lit "heartbeat").toBytes),
         Outcome.waiting⟩) := by
  have hrun := publisherLoop_run topicPublish topic k
  have hb : heartbeat = GoString.lit "heartbeat" := rfl
  rw [hb] at hrun
  refine ⟨by rw [hrun], ?_, ?_, by rw [hrun], ?_, ?_⟩
  · rw [hrun, publishCalls_replicate]
  · rw [hrun, publishCalls_replicate, List.length_replicate]
  · rw [hrun, hrun, List.replicate_succ']
  · intro env htp hticks
    subst htp hticks
    have h0 := publisherLoop_run env.topicPublish topic 0 env.ticks
    rw [hb] at h0
    simp [publisherBranch, h0, Exec.after]

theorem publisherLoop_one_publish_per_tick_witness :
    publishCalls (publisherLoop (fun _ _ _ => some ⟨"topic closed"⟩) ⟨"test"⟩ 0 3).trace =
      List.replicate 3 (⟨"test"⟩, (GoString.lit "heartbeat").toBytes) ∧
    publisherBranch
        { libp2pNew := Except.ok hostA, newGossipSub := none, mdnsStart := none, join := none,
          subscribe := none, next := [], ticks := 3,
          topicPublish := fun _ _ _ => some ⟨"topic closed"⟩ }
        (some ⟨"test"⟩) =
      ⟨Event.log ⟨Level.info, [], "publishing..."⟩ ::
        List.replicate 3 (Event.topicPublish ⟨"test"⟩ (GoString.lit "heartbeat").toBytes),
       Outcome.waiting⟩ :=
  ⟨(publisherLoop_one_publish_per_tick (fun _ _ _ => some ⟨"topic closed"⟩) ⟨"test"⟩ 0 3).2.1,
    (publisherLoop_one_publish_per_tick (fun _ _ _ => some ⟨"topic closed"⟩) ⟨"test"⟩ 0
      3).2.2.2.2.2 _ rfl rfl⟩

/-- C10: with both flags set `main` writes the fatal record 'cannot be both
publisher and subscriber' and exits, with neither set it writes 'must be either
publisher or subscriber' and exits, in both cases having done nothing else; with
exactly one set it goes on to the start-up sequence, whose first step is the
creation of the host.  So the host is created if and only if exactly one flag is
set. -/
theorem main_mode_validation (env : Env) :
    main env true true =
      ⟨[Event.log ⟨Level.fatal, [], "cannot be both publisher and subscriber"⟩],
       Outcome.exit 1⟩ ∧
    main env false false =
      ⟨[Event.log ⟨Level.fatal, [], "must be either publisher or subscriber"⟩],
       Outcome.exit 1⟩ ∧
    main env true false = startup env true false ∧
    main env false true = startup env false true ∧
    (∀ publisher subscriber : Bool,
      (startup env publisher subscriber).trace.head? = some Event.libp2pNew) ∧
    (∀ publisher subscriber : Bool,
      Event.libp2pNew ∈ (main env publisher subscriber).trace ↔
        (publisher != subscriber) = true) ∧
    (∀ publisher subscriber : Bool,
      Event.join "test" ∈ (main env publisher subscriber).trace →
        (publisher != subscriber) = true) := by
  have hhead : ∀ publisher subscriber : Bool,
      Event.libp2pNew ∈ (startup env publisher subscriber).trace := by
    intro p s
    obtain ⟨rest, hrest⟩ := startup_trace_head env p s
    rw [hrest]; exact List.mem_cons_self _ _
  refine ⟨rfl, rfl, rfl, rfl, ?_, ?_, ?_⟩
  · intro p s
    obtain ⟨rest, hrest⟩ := startup_trace_head env p s
    rw [hrest]; rfl
  · intro p s
    cases p <;> cases s <;> simp [main, hhead]
  · intro p s
    cases p <;> cases s <;> simp [main]

/-- C7, as stated, fails: with a SeenSet of capacity 1 the first message of `A`
arrives at `C`, then a second one, which evicts the first fingerprint, then the
first one again; the first message is processed by the subscriber loop twice. -/
theorem evicted_fingerprint_is_delivered_again :
    receiveAll originSeqno (SeenSet.empty 1)
        [heartbeatOfAViaB, secondOfAViaB, heartbeatOfAViaB] =
      [heartbeatOfAViaB, secondOfAViaB, heartbeatOfAViaB] ∧
    (subscriberLoop hostC
        ((receiveAll originSeqno (SeenSet.empty 1)
          [heartbeatOfAViaB, secondOfAViaB, heartbeatOfAViaB]).map Except.ok)).trace =
      [Event.log ⟨Level.info,
        [("from", FieldVal.pretty peerB), ("msg", FieldVal.str (GoString.lit "heartbeat"))],
        "received message"⟩,
       Event.log ⟨Level.info,
        [("from", FieldVal.pretty peerB), ("msg", FieldVal.str (GoString.lit "second"))],
        "received message"⟩,
       Event.log ⟨Level.info,
        [("from", FieldVal.pretty peerB), ("msg", FieldVal.str (GoString.lit "heartbeat"))],
        "received message"⟩] := by
  decide

/-- C7, amended: an incoming message is delivered to the local subscriber exactly
when its fingerprint is not among the last `capacity` delivered fingerprints, the
ones the SeenSet still holds.  So two deliveries of one fingerprint are always
more than `capacity` deliveries apart: a message is delivered again only after
its fingerprint was evicted, and an evicted fingerprint that arrives again is
delivered again.  The subscriber loop writes its records for the delivered
messages not received from this node itself, and when the incoming messages carry
at most `capacity` distinct fingerprints every fingerprint is processed at most
once. -/
theorem delivered_again_only_after_eviction {F : Type} [DecidableEq F]
    (fingerprint : Message → F) (capacity : Nat) (h : Host) (incoming : List Message) :
    (subscriberLoop h
        ((receiveAll fingerprint (SeenSet.empty capacity) incoming).map Except.ok)).trace =
      ((receiveAll fingerprint (SeenSet.empty capacity) incoming).filter
        (fun m => decide (m.ReceivedFrom ≠ h.ID))).map (fun m => Event.log (receivedRecord m)) ∧
    (∀ (pre : List Message) (m : Message) (post : List Message), incoming = pre ++ m :: post →
      ∃ later,
        receiveAll fingerprint (SeenSet.empty capacity) incoming =
          receiveAll fingerprint (SeenSet.empty capacity) pre ++
            (if fingerprint m ∈ lastN capacity
                ((receiveAll fingerprint (SeenSet.empty capacity) pre).map fingerprint)
             then [] else [m]) ++ later) ∧
    (∀ (i j : Nat) (x y : Message), i < j →
      (receiveAll fingerprint (SeenSet.empty capacity) incoming)[i]? = some x →
      (receiveAll fingerprint (SeenSet.empty capacity) incoming)[j]? = some y →
      fingerprint x = fingerprint y → i + capacity < j) ∧
    (((incoming.map fingerprint).dedup).length ≤ capacity →
      ∀ fp : F,
        ((((receiveAll fingerprint (SeenSet.empty capacity) incoming).filter
          (fun m => decide (m.ReceivedFrom ≠ h.ID))).map fingerprint).count fp) ≤ 1) := by
  refine ⟨subscriberLoop_ok_trace h _, ?_, ?_, ?_⟩
  · intro pre m post hsplit
    refine ⟨receiveAll fingerprint
      (seenAfter fingerprint (SeenSet.empty capacity) (pre ++ [m])) post, ?_⟩
    have hlist : pre ++ m :: post = (pre ++ [m]) ++ post := by simp
    rw [hsplit, hlist, receiveAll_append, receiveAll_snoc]
  · intro i j x y hij hx hy hfp
    exact receiveAll_separated fingerprint capacity incoming i j x y hij hx hy hfp
  · intro hfit
    have hfit1 : ((SeenSet.empty capacity : SeenSet F).entries ++
        incoming.map fingerprint).toFinset.card ≤
        (SeenSet.empty capacity : SeenSet F).capacity := by
      simpa [SeenSet.empty, List.card_toFinset] using hfit
    have hnd := (receiveAll_fingerprints_nodup fingerprint incoming (SeenSet.empty capacity)
      (by simp [SeenSet.empty]) hfit1).1
    have hsub : (((receiveAll fingerprint (SeenSet.empty capacity) incoming).filter
        (fun m => decide (m.ReceivedFrom ≠ h.ID))).map fingerprint).Nodup :=
      List.Nodup.sublist (List.Sublist.map _ (List.filter_sublist _)) hnd
    exact fun fp => List.nodup_iff_count_le_one.mp hsub fp

theorem delivered_again_only_after_eviction_witness :
    (receiveAll originSeqno (SeenSet.empty 1)
        [heartbeatOfAViaB, heartbeatOfAViaB, secondOfAViaB, secondOfAViaB] =
      [heartbeatOfAViaB, secondOfAViaB]) ∧
    (receiveAll originSeqno (SeenSet.empty 1)
        [heartbeatOfAViaB, secondOfAViaB, heartbeatOfAViaB])[0]? = some heartbeatOfAViaB ∧
    (receiveAll originSeqno (SeenSet.empty 1)
        [heartbeatOfAViaB, secondOfAViaB, heartbeatOfAViaB])[2]? = some heartbeatOfAViaB ∧
    0 + 1 < 2 ∧
    (([heartbeatOfAViaB, secondOfAViaB, heartbeatOfAViaB].map originSeqno).dedup).length ≤ 2 ∧
    ((((receiveAll originSeqno (SeenSet.empty 2)
        [heartbeatOfAViaB, secondOfAViaB, heartbeatOfAViaB]).filter
        (fun m => decide (m.ReceivedFrom ≠ hostC.ID))).map originSeqno).count
        (originSeqno heartbeatOfAViaB)) ≤ 1 :=
  ⟨by decide, by decide, by decide,
    (delivered_again_only_after_eviction originSeqno 1 hostC
      [heartbeatOfAViaB, secondOfAViaB, heartbeatOfAViaB]).2.2.1 0 2 heartbeatOfAViaB
      heartbeatOfAViaB (by decide) (by decide) (by decide) rfl,
    by decide,
    (delivered_again_only_after_eviction originSeqno 2 hostC
      [heartbeatOfAViaB, secondOfAViaB, heartbeatOfAViaB]).2.2.2 (by decide)
      (originSeqno heartbeatOfAViaB)⟩

/-- C8: a SeenSet that started empty never holds more entries than its capacity;
when it is at capacity, marking a new fingerprint evicts exactly one entry, the
oldest, and keeps the others in order followed by the new one; and after marking
distinct fingerprints it holds the most recent `capacity` of them, so with
capacity 100 and 10,000 distinct fingerprints exactly the last 100. -/
theorem SeenSet_bounded_oldest_first {F : Type} [DecidableEq F] (capacity : Nat)
    (fps : List F) (fp : F) (s : SeenSet F) (hs : s = (SeenSet.empty capacity).markAll fps) :
    s.entries.length ≤ capacity ∧
    (s.entries.length = capacity → fp ∉ s.entries →
      (s.markSeen fp).entries = (s.entries ++ [fp]).drop 1 ∧
      (s.markSeen fp).entries.length = capacity ∧
      (0 < capacity → ∃ oldest rest,
        s.entries = oldest :: rest ∧ (s.markSeen fp).entries = rest ++ [fp])) ∧
    (fps.Nodup → s.entries = fps.drop (fps.length - capacity)) ∧
    (capacity = 100 → fps.length = 10000 → fps.Nodup →
      s.entries = fps.drop 9900 ∧ s.entries.length = 100) := by
  have hcap : s.capacity = capacity := by
    rw [hs, SeenSet.markAll_capacity]; rfl
  have hle : s.entries.length ≤ capacity := by
    rw [hs]
    exact SeenSet.markAll_length_le (SeenSet.empty capacity) fps (Nat.zero_le _)
  have hnodup : fps.Nodup → s.entries = fps.drop (fps.length - capacity) := by
    intro hnd
    rw [hs]
    have h1 := SeenSet.markAll_entries_of_nodup (SeenSet.empty capacity) fps (Nat.zero_le _)
      (by simpa [SeenSet.empty] using hnd)
    simpa [SeenSet.empty] using h1
  refine ⟨hle, ?_, hnodup, ?_⟩
  · intro hfull hnew
    have hent := SeenSet.markSeen_entries_of_not_mem s fp hnew
    have hone : (s.entries ++ [fp]).length - s.capacity = 1 := by
      rw [hcap, List.length_append, List.length_singleton, hfull]; omega
    rw [hone] at hent
    refine ⟨hent, ?_, ?_⟩
    · rw [hent, List.length_drop, List.length_append, List.length_singleton, hfull]; omega
    · intro hpos
      cases hes : s.entries with
      | nil => rw [hes] at hfull; simp at hfull; omega
      | cons oldest rest =>
        refine ⟨oldest, rest, rfl, ?_⟩
        rw [hent, hes]; rfl
  · intro hc hlen hnd
    have h1 := hnodup hnd
    rw [hc, hlen] at h1
    refine ⟨h1, ?_⟩
    rw [h1, List.length_drop, hlen]

theorem SeenSet_bounded_oldest_first_witness :
    ((SeenSet.empty 100).markAll (List.range 10000)).entries = (List.range 10000).drop 9900 ∧
    ((SeenSet.empty 100).markAll (List.range 10000)).entries.length = 100 ∧
    (((SeenSet.empty 100).markAll (List.range 10000)).markSeen 10000).entries =
      (((SeenSet.empty 100).markAll (List.range 10000)).entries ++ [10000]).drop 1 := by
  have hthm := SeenSet_bounded_oldest_first 100 (List.range 10000) 10000
    ((SeenSet.empty 100).markAll (List.range 10000)) rfl
  have hlast := hthm.2.2.2 rfl (List.length_range 10000) (List.nodup_range 10000)
  refine ⟨hlast.1, hlast.2, (hthm.2.1 hlast.2 ?_).1⟩
  rw [hlast.1]
  intro hmem
  exact absurd (List.mem_range.mp (List.mem_of_mem_drop hmem)) (Nat.lt_irrefl _)

end P2P
